import Mathlib

/-!
Verification of the logo resolution engine of the
Dispatcharr channel-logo auto-grab/auto-assign plugin.

The Python source (`plugin.py`) is shallowly embedded below:
pure string functions become Lean functions on `List Char` / `String`;
the filesystem, clock and network are passed explicitly as state records;
Python exceptions become `Except PyErr`; Python `dict` becomes an
association list with first-binding lookup (dict keys are unique as built).
-/

namespace LogoPlugin

/-- Python ASCII whitespace, as matched by `str.strip` and the regex class
used in `normalize_key` (space, tab, newline, carriage return, vertical tab,
form feed). -/
def isWS (c : Char) : Bool :=
  c == ' ' || c == '\t' || c == '\n' || c == '\r' ||
  c == Char.ofNat 11 || c == Char.ofNat 12

/-- Python `str.lower` on ASCII letters (code points 65-90 map down by 32). -/
def pyLower (c : Char) : Char :=
  if 65 ≤ c.toNat ∧ c.toNat ≤ 90 then Char.ofNat (c.toNat + 32) else c

/-- Lowercasing of a whole character list. -/
def lowerL (l : List Char) : List Char := l.map pyLower

/-- Left half of Python `str.strip`: drop leading whitespace. -/
def trimLeft (l : List Char) : List Char := l.dropWhile isWS

/-- Right half of Python `str.strip`: drop trailing whitespace. -/
def trimRight : List Char → List Char
  | [] => []
  | a :: rest =>
    let r := trimRight rest
    if r.isEmpty ∧ isWS a then [] else a :: r

/-- Python `str.strip`: drop whitespace at both ends. -/
def stripL (l : List Char) : List Char := trimRight (trimLeft l)

/-- `re.sub(r"\s+", " ", s)`: every maximal whitespace run becomes one
single space.  A whitespace character followed by another whitespace
character is dropped; a whitespace character at the end of its run becomes
`' '`. -/
def collapseWS : List Char → List Char
  | [] => []
  | [a] => [if isWS a then ' ' else a]
  | a :: b :: rest =>
    if isWS a ∧ isWS b then collapseWS (b :: rest)
    else (if isWS a then ' ' else a) :: collapseWS (b :: rest)

/-- `str.replace` with a single-character pattern, generalized: each
character is rewritten to a (possibly empty) replacement list. -/
def replAll (f : Char → List Char) : List Char → List Char
  | [] => []
  | c :: rest => f c ++ replAll f rest

/-- `.replace("&", "and")`. -/
def ampRepl (c : Char) : List Char := if c == '&' then 'a' :: 'n' :: 'd' :: [] else [c]

/-- `.replace(":", "")`. -/
def colonRepl (c : Char) : List Char := if c == ':' then [] else [c]

/-- `.replace("|", "")`. -/
def pipeRepl (c : Char) : List Char := if c == '|' then [] else [c]

/-- `.replace("/", " ")`. -/
def slashRepl (c : Char) : List Char := if c == '/' then [' '] else [c]

/-- `.replace("\\", " ")`. -/
def backslashRepl (c : Char) : List Char := if c == '\\' then [' '] else [c]

/-- Membership in the regex class `[a-z0-9. +_-]` kept by
`re.sub(r"[^a-z0-9. +_-]", "", s)` (code points: a-z 97-122, 0-9 48-57,
`.` 46, space 32, `+` 43, `_` 95, `-` 45). -/
def isAllowed (c : Char) : Bool :=
  (97 ≤ c.toNat && c.toNat ≤ 122) || (48 ≤ c.toNat && c.toNat ≤ 57) ||
  c.toNat == 46 || c.toNat == 32 || c.toNat == 43 || c.toNat == 95 || c.toNat == 45

/-- The body of `normalize_key`, on character lists, one line of the source
per stage: strip+lower, collapse whitespace, `&`→`and`, strip `:` `|`,
`/` `\`→space, drop disallowed characters, collapse whitespace and strip. -/
def normList (l : List Char) : List Char :=
  let s1 := lowerL (stripL l)
  let s2 := collapseWS s1
  let s3 := replAll ampRepl s2
  let s4 := replAll backslashRepl (replAll slashRepl (replAll pipeRepl (replAll colonRepl s3)))
  let s5 := s4.filter isAllowed
  stripL (collapseWS s5)

/-- `normalize_key(s)` from the source. -/
def normalize_key (s : String) : String := ⟨normList s.data⟩

/-- Suffix test on character lists (`str.endswith`). -/
def endsWithL (l s : List Char) : Bool :=
  s.length ≤ l.length && (l.drop (l.length - s.length) == s)

/-- `re.search(r"(^|/)P$", val, re.IGNORECASE)` for a literal (lower-case)
pattern `P`: after lowercasing, the value is exactly `P` or ends with
`/` followed by `P`. -/
def anchoredSuffix (val pat : List Char) : Bool :=
  lowerL val == pat || endsWithL (lowerL val) ('/' :: pat)

/-- The optional extension alternation `(\.(png|jpg|jpeg|webp|svg))?` of the
placeholder patterns, including the empty choice. -/
def placeholderExts : List (List Char) :=
  [[], ('.' :: 'p' :: 'n' :: 'g' :: []), ('.' :: 'j' :: 'p' :: 'g' :: []),
   ('.' :: 'j' :: 'p' :: 'e' :: 'g' :: []), ('.' :: 'w' :: 'e' :: 'b' :: 'p' :: []),
   ('.' :: 's' :: 'v' :: 'g' :: [])]

/-- Match of `(^|/)(w)(\.(png|jpg|jpeg|webp|svg))?$` for a bare word `w`. -/
def wordExtMatch (w val : List Char) : Bool :=
  placeholderExts.any (fun e => anchoredSuffix val (w ++ e))

/-- `is_placeholder(value)` from the source: true on the empty string,
otherwise the stripped value is matched against the three
`PLACEHOLDER_PATTERNS` regexes. -/
def is_placeholder (value : String) : Bool :=
  if value == "" then true
  else
    let val := stripL value.data
    wordExtMatch ('l' :: 'o' :: 'g' :: 'o' :: []) val ||
    wordExtMatch ('d' :: 'e' :: 'f' :: 'a' :: 'u' :: 'l' :: 't' :: []) val ||
    anchoredSuffix val ('d' :: 'o' :: 'w' :: 'n' :: 'l' :: 'o' :: 'a' :: 'd' :: '.' :: 'j' :: 'p' :: 'g' :: [])

/-- A built index: Python `dict` as an association list whose keys are
unique (lookup returns the first binding). -/
abbrev Index := List (String × String)

/-- `pick_logo_path(index, candidates)` from the source.  Note the source
tests `if path:` (Python truthiness), so a key bound to the empty string is
passed over like a miss. -/
def pick_logo_path (index : Index) : List String → Option String
  | [] => none
  | c :: rest =>
    match index.lookup (normalize_key c) with
    | some path => if path ≠ "" then some path else pick_logo_path index rest
    | none => pick_logo_path index rest

/-! ## Index builder (`build_index`, plugin.py lines 63-126) -/

/-- Python exceptions that the index-building phase can raise:
`.attributeError` (calling `.get`/`.lower` on an object lacking it),
`.typeError` (iterating a non-iterable). -/
inductive PyErr where
  | attributeError
  | typeError
deriving DecidableEq, Repr

/-- A decoded JSON value, the result of `json.loads` on the listing
payload. -/
inductive JValue where
  | null
  | bool (b : Bool)
  | num (n : Int)
  | str (s : String)
  | arr (elems : List JValue)
  | obj (fields : List (String × JValue))

/-- Python truthiness of a decoded JSON value. -/
def jTruthy : JValue → Bool
  | .null => false
  | .bool b => b
  | .num n => n != 0
  | .str s => s != ""
  | .arr l => !l.isEmpty
  | .obj f => !f.isEmpty

/-- `for node in blobs`: lists iterate over their elements, strings over
their one-character substrings, dicts over their keys; other values raise
`TypeError`. -/
def iterElems : JValue → Except PyErr (List JValue)
  | .arr l => .ok l
  | .str s => .ok (s.data.map (fun c => .str (String.singleton c)))
  | .obj fields => .ok (fields.map (fun kv => .str kv.1))
  | _ => .error .typeError

/-- The image-extension suffix test
`path.lower().endswith((".png", ".webp", ".jpg", ".jpeg", ".svg"))`. -/
def hasImageExt (s : String) : Bool :=
  let low := lowerL s.data
  endsWithL low ('.' :: 'p' :: 'n' :: 'g' :: []) ||
  endsWithL low ('.' :: 'w' :: 'e' :: 'b' :: 'p' :: []) ||
  endsWithL low ('.' :: 'j' :: 'p' :: 'g' :: []) ||
  endsWithL low ('.' :: 'j' :: 'p' :: 'e' :: 'g' :: []) ||
  endsWithL low ('.' :: 's' :: 'v' :: 'g' :: [])

/-- `path.rsplit("/", 1)[-1]`: the final path segment. -/
def lastSegment (l : List Char) : List Char :=
  l.foldl (fun acc c => if c == '/' then [] else acc ++ [c]) []

/-- `re.sub(r"\.(png|webp|jpg|jpeg|svg)$", "", base, flags=re.IGNORECASE)`:
strip one trailing image extension, case-insensitively. -/
def stripExt (l : List Char) : List Char :=
  let low := lowerL l
  if endsWithL low ('.' :: 'p' :: 'n' :: 'g' :: []) then l.take (l.length - 4)
  else if endsWithL low ('.' :: 'w' :: 'e' :: 'b' :: 'p' :: []) then l.take (l.length - 5)
  else if endsWithL low ('.' :: 'j' :: 'p' :: 'g' :: []) then l.take (l.length - 4)
  else if endsWithL low ('.' :: 'j' :: 'p' :: 'e' :: 'g' :: []) then l.take (l.length - 5)
  else if endsWithL low ('.' :: 's' :: 'v' :: 'g' :: []) then l.take (l.length - 4)
  else l

/-- A well-shaped listing entry, carrying the values of `node.get("type")`
and `node.get("path")` (absent keys give `none`, Python `None`). -/
structure TreeNode where
  ty : Option String
  path : Option String
deriving DecidableEq, Repr

/-- `node.get("path") or ""`: absent or falsy path becomes the empty
string. -/
def pathOf (n : TreeNode) : String := n.path.getD ""

/-- A node contributes an entry iff `node.get("type") == "blob"` and its
path ends in one of the fixed image extensions. -/
def eligible (n : TreeNode) : Bool :=
  n.ty == some "blob" && hasImageExt (pathOf n)

/-- The normalized key of a node: final path segment, extension stripped,
then `normalize_key`. -/
def keyOf (n : TreeNode) : String :=
  normalize_key ⟨stripExt (lastSegment (pathOf n).data)⟩

/-- `index.setdefault(norm, path)`: insert only if the key is absent. -/
def insertIfAbsent (idx : Index) (k v : String) : Index :=
  if (idx.lookup k).isSome then idx else idx ++ [(k, v)]

/-- The index-construction loop of `build_index` (lines 104-116) over
well-shaped nodes. -/
def buildFromNodes : List TreeNode → Index → Index
  | [], idx => idx
  | n :: rest, idx =>
    if eligible n then buildFromNodes rest (insertIfAbsent idx (keyOf n) (pathOf n))
    else buildFromNodes rest idx

/-- `node.get("type") == "blob"`: equality with the string `"blob"`,
false for any non-string value and for an absent key. -/
def isBlobType : Option JValue → Bool
  | some (.str s) => s == "blob"
  | _ => false

/-- Processing of one decoded listing element by the loop body: non-dict
nodes raise `AttributeError` at `node.get`; a `"type"` other than `"blob"`
skips the node; a truthy non-string `"path"` raises `AttributeError` at
`path.lower()`. -/
def processJNode (idx : Index) (node : JValue) : Except PyErr Index :=
  match node with
  | .obj fields =>
    if !(isBlobType (fields.lookup "type")) then .ok idx
    else
      let pv : JValue :=
        match fields.lookup "path" with
        | some v => if jTruthy v then v else .str ""
        | none => .str ""
      match pv with
      | .str s =>
        if hasImageExt s then
          .ok (insertIfAbsent idx (normalize_key ⟨stripExt (lastSegment s.data)⟩) s)
        else .ok idx
      | _ => .error .attributeError
  | _ => .error .attributeError

/-- Lines 104-116 of `build_index` applied to a decoded payload:
`tree.get("tree", [])` (raising on a non-dict payload), iteration, and the
per-node loop body. -/
def buildFresh (payload : JValue) : Except PyErr Index := do
  let blobs ← match payload with
    | .obj fields => pure ((fields.lookup "tree").getD (.arr []))
    | _ => throw .attributeError
  let elems ← iterElems blobs
  elems.foldlM processJNode []

/-- `INDEX_TTL_SECS = 6 * 60 * 60`. -/
def INDEX_TTL_SECS : Nat := 6 * 60 * 60

/-- State of the cache file at `<logos_dir>/.tvlogos_index.json`:
whether it exists, its age in seconds (now minus mtime), and its parse
result (`none` models a read or `json.load` failure). -/
structure CacheState where
  cacheExists : Bool
  age : Nat
  content : Option Index
deriving DecidableEq, Repr

/-- Outcome of `_http_get(GITHUB_TREE_URL, as_json=True)`:
`.httpError` is the `error.HTTPError` branch, `.otherError` every other
exception (timeout, DNS, undecodable JSON), `.ok` a decoded payload. -/
inductive FetchOutcome where
  | httpError
  | otherError
  | ok (payload : JValue)

/-- What one `build_index` call produced: its return value (or the
exception it raised), the mapping written to the cache file (if any), and
whether the network was consulted. -/
structure BuildResult where
  result : Except PyErr Index
  cacheWritten : Option Index
  usedNetwork : Bool
deriving Repr

/-- The stale-on-error fallback of `build_index` (lines 82-91 / 94-102):
return any parse-able cache regardless of age, else the empty mapping. -/
def staleFallback (cache : CacheState) : BuildResult :=
  if cache.cacheExists then
    match cache.content with
    | some idx => ⟨.ok idx, none, true⟩
    | none => ⟨.ok [], none, true⟩
  else ⟨.ok [], none, true⟩

/-- The fetch-and-build phase of `build_index` (lines 77-126): a failed
fetch degrades to the stale fallback; a successful fetch builds the fresh
index (possibly raising on a malformed payload) and writes the cache
best-effort. -/
def fetchPhase (cache : CacheState) (fetch : FetchOutcome) (persistOk : Bool) : BuildResult :=
  match fetch with
  | .httpError | .otherError => staleFallback cache
  | .ok payload =>
    match buildFresh payload with
    | .error e => ⟨.error e, none, true⟩
    | .ok idx => ⟨.ok idx, if persistOk then some idx else none, true⟩

/-- `build_index(logos_dir)` from the source, as a function of the cache
state, the fetch outcome and whether the best-effort cache write would
succeed.  Fresh cache (age below TTL) that parses is returned with no
network call; a cache read/parse failure is swallowed and falls through to
the fetch. -/
def build_index (cache : CacheState) (fetch : FetchOutcome) (persistOk : Bool) : BuildResult :=
  match (if cache.cacheExists ∧ cache.age < INDEX_TTL_SECS then cache.content else none) with
  | some idx => ⟨.ok idx, none, false⟩
  | none => fetchPhase cache fetch persistOk

/-! ## Pass coordinator (`Plugin._do_pass`, plugin.py lines 314-396) -/

/-- `DEFAULT_LOGOS_DIR` with the environment variable unset. -/
def DEFAULT_LOGOS_DIR : String := "/data/logos"

/-- Python truthiness of the optional strings produced by
`_extract_channel_fields` (`None` and `""` are falsy). -/
def pyTruthyO : Option String → Bool
  | none => false
  | some s => s != ""

/-- One scanned channel, as seen by the loop body of `_do_pass`: the three
values `_extract_channel_fields` returns for it, plus oracles for the two
external effects (whether `download_logo` would succeed and whether
`_assign_logo` would return True). -/
structure Chan where
  tvg_id : Option String
  name : Option String
  logoVal : Option String
  dlOk : Bool
  assignOk : Bool
deriving DecidableEq, Repr

/-- What the loop body did with one channel: skipped (existing real logo),
missed with no download attempt (resolver returned no match), missed with a
failed download attempt, or downloaded (with the assignment outcome). -/
inductive ChanOutcome where
  | skipped
  | noMatch
  | dlFailed
  | dlOk (assigned : Bool)
deriving DecidableEq, Repr

/-- The loop body of `_do_pass` (lines 353-392) for one channel. -/
def processChan (index : Index) (ch : Chan) : ChanOutcome :=
  if pyTruthyO ch.logoVal && !(is_placeholder (ch.logoVal.getD "")) then .skipped
  else
    let candidates :=
      (if pyTruthyO ch.tvg_id then [ch.tvg_id.getD ""] else []) ++
      (if pyTruthyO ch.name then [ch.name.getD ""] else [])
    match pick_logo_path index candidates with
    | none => .noMatch
    | some p =>
      if p == "" then .noMatch
      else if ch.dlOk then .dlOk ch.assignOk
      else .dlFailed

/-- The pass counters plus the per-channel effect counts (download
attempts and assignment attempts). -/
structure Tally where
  skipped : Nat
  miss : Nat
  downloaded : Nat
  updated : Nat
  dlAttempts : Nat
  assignAttempts : Nat
deriving DecidableEq, Repr

/-- How one channel outcome moves the counters, exactly as the loop body
increments them: skip → `skipped`; no match or failed download → `miss`;
successful download → `downloaded` plus, on successful assignment,
`updated`. -/
def tallyStep (t : Tally) : ChanOutcome → Tally
  | .skipped => { t with skipped := t.skipped + 1 }
  | .noMatch => { t with miss := t.miss + 1 }
  | .dlFailed => { t with miss := t.miss + 1, dlAttempts := t.dlAttempts + 1 }
  | .dlOk assigned =>
    { t with downloaded := t.downloaded + 1,
             dlAttempts := t.dlAttempts + 1,
             assignAttempts := t.assignAttempts + 1,
             updated := t.updated + (if assigned then 1 else 0) }

/-- The counters accumulated over a whole pass. -/
def tally (outs : List ChanOutcome) : Tally :=
  outs.foldl tallyStep ⟨0, 0, 0, 0, 0, 0⟩

/-- The dictionary `_do_pass` returns. -/
structure Summary where
  ok : Bool
  updated : Nat
  downloaded : Nat
  skipped : Nat
  miss : Nat
  logosDir : String
  reason : Option String
deriving DecidableEq, Repr

/-- The early-return summary when the run lock is fresh (line 316). -/
def lockedSummary : Summary :=
  { ok := true, updated := 0, downloaded := 0, skipped := 0, miss := 0,
    logosDir := DEFAULT_LOGOS_DIR, reason := some "locked" }

/-- The world one `_do_pass` call runs against: the lock marker file, the
logo directory, whether model discovery and the channel query succeed, the
cache/fetch state for `build_index`, and the channels the query returns. -/
structure PassEnv where
  lockExists : Bool
  lockAge : Nat
  logosDir : String
  modelsFound : Bool
  queryOk : Bool
  cache : CacheState
  fetch : FetchOutcome
  persistOk : Bool
  chans : List Chan

/-- Externally visible side effects of one `_do_pass` call. -/
structure Effects where
  lockWritten : Bool
  dirCreated : Bool
  indexBuilt : Bool
  cacheWritten : Bool
  dlAttempts : Nat
  assignAttempts : Nat
deriving DecidableEq, Repr

/-- `Plugin._do_pass` from the source: fresh lock → immediate `"locked"`
summary; then lock write and `os.makedirs`; models not discovered →
`"models-not-found"`; then `build_index` (whose exception, if any,
propagates); query failure → `"query-error"`; otherwise the per-channel
loop and the final summary. -/
def do_pass (env : PassEnv) : Except PyErr Summary × Effects :=
  if env.lockExists ∧ env.lockAge < 60 then
    (.ok lockedSummary, ⟨false, false, false, false, 0, 0⟩)
  else if !env.modelsFound then
    (.ok { ok := false, updated := 0, downloaded := 0, skipped := 0, miss := 0,
           logosDir := env.logosDir, reason := some "models-not-found" },
     ⟨true, true, false, false, 0, 0⟩)
  else
    let b := build_index env.cache env.fetch env.persistOk
    match b.result with
    | .error e => (.error e, ⟨true, true, true, b.cacheWritten.isSome, 0, 0⟩)
    | .ok index =>
      if !env.queryOk then
        (.ok { ok := false, updated := 0, downloaded := 0, skipped := 0, miss := 0,
               logosDir := env.logosDir, reason := some "query-error" },
         ⟨true, true, true, b.cacheWritten.isSome, 0, 0⟩)
      else
        let t := tally (env.chans.map (processChan index))
        (.ok { ok := true, updated := t.updated, downloaded := t.downloaded,
               skipped := t.skipped, miss := t.miss,
               logosDir := env.logosDir, reason := none },
         ⟨true, true, true, b.cacheWritten.isSome, t.dlAttempts, t.assignAttempts⟩)

/-! ## Lemmas: index construction -/

/-- A well-shaped listing entry rendered back as the JSON object the
GitHub trees API would deliver for it. -/
def encodeNode (n : TreeNode) : JValue :=
  .obj ((match n.ty with | some s => [("type", JValue.str s)] | none => []) ++
        (match n.path with | some s => [("path", JValue.str s)] | none => []))

/-- A well-shaped listing payload: an object with a `tree` array of
encoded nodes. -/
def encodeListing (nodes : List TreeNode) : JValue :=
  .obj [("tree", .arr (nodes.map encodeNode))]

theorem lookup_append (k : String) (l₁ l₂ : Index) :
    List.lookup k (l₁ ++ l₂) = (List.lookup k l₁).or (List.lookup k l₂) := by
  induction l₁ with
  | nil => simp [List.lookup, Option.none_or]
  | cons p rest ih =>
    obtain ⟨k₀, v⟩ := p
    simp only [List.cons_append, List.lookup]
    cases h : (k == k₀) <;> simp [ih]

theorem lookup_insertIfAbsent (idx : Index) (k₀ v k : String) :
    List.lookup k (insertIfAbsent idx k₀ v) =
      (List.lookup k idx).or (if k = k₀ then some v else none) := by
  unfold insertIfAbsent
  by_cases h : (List.lookup k₀ idx).isSome
  · rw [if_pos h]
    by_cases hk : k = k₀
    · subst hk
      obtain ⟨w, hw⟩ := Option.isSome_iff_exists.mp h
      simp [hw]
    · simp [hk, Option.or_none]
  · rw [if_neg h, lookup_append]
    by_cases hk : k = k₀
    · subst hk
      simp [List.lookup]
    · have hb : (k == k₀) = false := by simp [hk]
      simp only [List.lookup, hb, if_neg hk]

theorem buildFromNodes_cons_pos {n : TreeNode} (he : eligible n = true)
    (rest : List TreeNode) (idx : Index) :
    buildFromNodes (n :: rest) idx
      = buildFromNodes rest (insertIfAbsent idx (keyOf n) (pathOf n)) := by
  simp [buildFromNodes, he]

theorem buildFromNodes_cons_neg {n : TreeNode} (he : eligible n = false)
    (rest : List TreeNode) (idx : Index) :
    buildFromNodes (n :: rest) idx = buildFromNodes rest idx := by
  simp [buildFromNodes, he]

theorem lookup_buildFromNodes (nodes : List TreeNode) (idx : Index) (k : String) :
    List.lookup k (buildFromNodes nodes idx) =
      (List.lookup k idx).or
        (((nodes.filter eligible).find? (fun n => keyOf n == k)).map pathOf) := by
  induction nodes generalizing idx with
  | nil => simp [buildFromNodes, Option.or_none]
  | cons n rest ih =>
    cases he : eligible n with
    | true =>
      rw [buildFromNodes_cons_pos he, ih, lookup_insertIfAbsent, Option.or_assoc,
        List.filter_cons_of_pos (by simp [he])]
      have h2 : Option.or (if k = keyOf n then some (pathOf n) else none)
            (Option.map pathOf (List.find? (fun m => keyOf m == k) (List.filter eligible rest)))
          = Option.map pathOf (List.find? (fun m => keyOf m == k)
              (n :: List.filter eligible rest)) := by
        by_cases hk : keyOf n = k
        · subst hk
          simp [List.find?, Option.or]
        · have hb : (keyOf n == k) = false := by simp [hk]
          rw [if_neg (fun h => hk h.symm), Option.none_or]
          simp [List.find?, hb]
      rw [h2]
    | false =>
      rw [buildFromNodes_cons_neg he, ih, List.filter_cons_of_neg (by simp [he])]

theorem processJNode_encode_pos (idx : Index) {n : TreeNode} (he : eligible n = true) :
    processJNode idx (encodeNode n) = .ok (insertIfAbsent idx (keyOf n) (pathOf n)) := by
  obtain ⟨ty, path⟩ := n
  simp only [eligible, Bool.and_eq_true, beq_iff_eq] at he
  obtain ⟨hty, hext⟩ := he
  subst hty
  cases path with
  | none =>
    simp only [pathOf, Option.getD] at hext
    simp [processJNode, encodeNode, isBlobType, List.lookup, keyOf, pathOf, hext]
  | some p =>
    by_cases hp : p = ""
    · subst hp
      simp only [pathOf, Option.getD] at hext
      simp [processJNode, encodeNode, isBlobType, List.lookup, keyOf, pathOf, jTruthy, hext]
    · have hpt : jTruthy (.str p) = true := by simp [jTruthy, hp]
      simp only [pathOf, Option.getD] at hext
      simp [processJNode, encodeNode, isBlobType, List.lookup, keyOf, pathOf, hpt, hext]

theorem processJNode_encode_neg (idx : Index) {n : TreeNode} (he : eligible n = false) :
    processJNode idx (encodeNode n) = .ok idx := by
  obtain ⟨ty, path⟩ := n
  cases ty with
  | none =>
    cases path with
    | none => simp [processJNode, encodeNode, isBlobType, List.lookup]
    | some p => simp [processJNode, encodeNode, isBlobType, List.lookup]
  | some s =>
    by_cases hs : s = "blob"
    · subst hs
      have hext : hasImageExt (pathOf ⟨some "blob", path⟩) = false := by
        simpa [eligible] using he
      cases path with
      | none =>
        simp only [pathOf, Option.getD] at hext
        simp [processJNode, encodeNode, isBlobType, List.lookup, jTruthy, hext]
      | some p =>
        by_cases hp : p = ""
        · subst hp
          simp only [pathOf, Option.getD] at hext
          simp [processJNode, encodeNode, isBlobType, List.lookup, jTruthy, hext]
        · have hpt : jTruthy (.str p) = true := by simp [jTruthy, hp]
          simp only [pathOf, Option.getD] at hext
          simp [processJNode, encodeNode, isBlobType, List.lookup, hpt, hext]
    · have hb : isBlobType (some (.str s)) = false := by simp [isBlobType, hs]
      cases path with
      | none => simp [processJNode, encodeNode, hb, List.lookup]
      | some p => simp [processJNode, encodeNode, hb, List.lookup]

theorem foldlM_processJNode_encode (nodes : List TreeNode) (idx : Index) :
    List.foldlM processJNode idx (nodes.map encodeNode) = .ok (buildFromNodes nodes idx) := by
  induction nodes generalizing idx with
  | nil => rfl
  | cons n rest ih =>
    cases he : eligible n with
    | true =>
      rw [List.map_cons, List.foldlM_cons, processJNode_encode_pos idx he]
      rw [show ((Except.ok (insertIfAbsent idx (keyOf n) (pathOf n)) : Except PyErr Index) >>=
            fun idx' => List.foldlM processJNode idx' (rest.map encodeNode))
          = List.foldlM processJNode (insertIfAbsent idx (keyOf n) (pathOf n))
              (rest.map encodeNode) from rfl]
      rw [ih, buildFromNodes_cons_pos he]
    | false =>
      rw [List.map_cons, List.foldlM_cons, processJNode_encode_neg idx he]
      rw [show ((Except.ok idx : Except PyErr Index) >>=
            fun idx' => List.foldlM processJNode idx' (rest.map encodeNode))
          = List.foldlM processJNode idx (rest.map encodeNode) from rfl]
      rw [ih, buildFromNodes_cons_neg he]

theorem buildFresh_encode (nodes : List TreeNode) :
    buildFresh (encodeListing nodes) = .ok (buildFromNodes nodes []) := by
  rw [show buildFresh (encodeListing nodes)
      = List.foldlM processJNode [] (nodes.map encodeNode) from rfl]
  exact foldlM_processJNode_encode nodes []

/-! ## Lemmas: pass counters -/

theorem foldl_tallyStep_sum (outs : List ChanOutcome) (t : Tally) :
    (outs.foldl tallyStep t).skipped + (outs.foldl tallyStep t).miss +
        (outs.foldl tallyStep t).downloaded
      = t.skipped + t.miss + t.downloaded + outs.length := by
  induction outs generalizing t with
  | nil => simp
  | cons o rest ih =>
    rw [List.foldl_cons, ih, List.length_cons]
    cases o <;> simp [tallyStep] <;> omega

theorem foldl_tallyStep_updated_le (outs : List ChanOutcome) (t : Tally)
    (h : t.updated ≤ t.downloaded) :
    (outs.foldl tallyStep t).updated ≤ (outs.foldl tallyStep t).downloaded := by
  induction outs generalizing t with
  | nil => simpa
  | cons o rest ih =>
    rw [List.foldl_cons]
    apply ih
    cases o with
    | skipped => simpa [tallyStep]
    | noMatch => simpa [tallyStep]
    | dlFailed => simpa [tallyStep]
    | dlOk a => cases a <;> simp [tallyStep] <;> omega

theorem do_pass_iterating_eq (env : PassEnv) (idx : Index)
    (h1 : ¬(env.lockExists ∧ env.lockAge < 60))
    (h2 : env.modelsFound = true)
    (h3 : (build_index env.cache env.fetch env.persistOk).result = .ok idx)
    (h4 : env.queryOk = true) :
    do_pass env =
      (.ok { ok := true,
             updated := (tally (env.chans.map (processChan idx))).updated,
             downloaded := (tally (env.chans.map (processChan idx))).downloaded,
             skipped := (tally (env.chans.map (processChan idx))).skipped,
             miss := (tally (env.chans.map (processChan idx))).miss,
             logosDir := env.logosDir, reason := none },
       ⟨true, true, true,
        (build_index env.cache env.fetch env.persistOk).cacheWritten.isSome,
        (tally (env.chans.map (processChan idx))).dlAttempts,
        (tally (env.chans.map (processChan idx))).assignAttempts⟩) := by
  unfold do_pass
  rw [if_neg h1]
  rw [if_neg (by simp [h2])]
  simp only [h3, h4]
  rfl

/-! ## Lemmas: normalization idempotence -/

/-- No two adjacent characters are both whitespace. -/
def noWSRun : List Char → Bool
  | [] => true
  | [_] => true
  | a :: b :: rest => !(isWS a && isWS b) && noWSRun (b :: rest)

theorem allowed_pyLower {c : Char} (h : isAllowed c = true) : pyLower c = c := by
  unfold isAllowed at h
  unfold pyLower
  simp only [Bool.or_eq_true, Bool.and_eq_true, decide_eq_true_eq, beq_iff_eq] at h
  rw [if_neg (by omega)]

theorem allowed_ne_of {c d : Char} (h : isAllowed c = true) (hd : isAllowed d = false) :
    c ≠ d := by
  intro he
  rw [he, hd] at h
  exact absurd h (by simp)

theorem allowed_ws_eq_space {c : Char} (h : isAllowed c = true) (hw : isWS c = true) :
    c = ' ' := by
  unfold isWS at hw
  simp only [Bool.or_eq_true, beq_iff_eq] at hw
  rcases hw with ((((h1 | h1) | h1) | h1) | h1) | h1 <;> subst h1 <;> first
    | rfl
    | exact absurd h (by decide)

theorem replAll_id (f : Char → List Char) (l : List Char) (h : ∀ c ∈ l, f c = [c]) :
    replAll f l = l := by
  induction l with
  | nil => rfl
  | cons c rest ih =>
    rw [replAll, h c (List.mem_cons_self c rest), ih (fun d hd => h d (List.mem_cons_of_mem c hd))]
    rfl

theorem lowerL_eq_self {l : List Char} (h : ∀ c ∈ l, isAllowed c = true) :
    lowerL l = l := by
  induction l with
  | nil => rfl
  | cons c rest ih =>
    rw [lowerL, List.map_cons, allowed_pyLower (h c (List.mem_cons_self c rest))]
    rw [show List.map pyLower rest = lowerL rest from rfl,
      ih (fun d hd => h d (List.mem_cons_of_mem c hd))]

theorem filter_allowed_eq_self {l : List Char} (h : ∀ c ∈ l, isAllowed c = true) :
    l.filter isAllowed = l :=
  List.filter_eq_self.mpr h

theorem mem_trimLeft {c : Char} {l : List Char} (h : c ∈ trimLeft l) : c ∈ l := by
  induction l with
  | nil => exact absurd h (by simp [trimLeft])
  | cons a rest ih =>
    rw [trimLeft, List.dropWhile_cons] at h
    by_cases ha : isWS a = true
    · rw [if_pos ha] at h
      exact List.mem_cons_of_mem a (ih h)
    · rw [if_neg ha] at h
      exact h

theorem mem_trimRight {c : Char} {l : List Char} (h : c ∈ trimRight l) : c ∈ l := by
  induction l with
  | nil => exact absurd h (by simp [trimRight])
  | cons a rest ih =>
    rw [trimRight] at h
    by_cases hc : (trimRight rest).isEmpty = true ∧ isWS a = true
    · rw [if_pos hc] at h
      exact absurd h (by simp)
    · rw [if_neg hc] at h
      rcases List.mem_cons.mp h with h1 | h1
      · exact h1 ▸ List.mem_cons_self a rest
      · exact List.mem_cons_of_mem a (ih h1)

theorem mem_stripL {c : Char} {l : List Char} (h : c ∈ stripL l) : c ∈ l :=
  mem_trimLeft (mem_trimRight h)

theorem mem_collapseWS {c : Char} {l : List Char} (h : c ∈ collapseWS l) :
    c = ' ' ∨ c ∈ l := by
  induction l with
  | nil => exact absurd h (by simp [collapseWS])
  | cons a rest ih =>
    cases rest with
    | nil =>
      rw [collapseWS] at h
      rcases List.mem_cons.mp h with h1 | h1
      · by_cases ha : isWS a = true
        · left
          rw [h1, if_pos ha]
        · right
          rw [h1, if_neg ha]
          exact List.mem_cons_self a []
      · exact absurd h1 (by simp)
    | cons b rest' =>
      rw [collapseWS] at h
      by_cases hc : isWS a = true ∧ isWS b = true
      · rw [if_pos hc] at h
        rcases ih h with h1 | h1
        · exact Or.inl h1
        · exact Or.inr (List.mem_cons_of_mem a h1)
      · rw [if_neg hc] at h
        rcases List.mem_cons.mp h with h1 | h1
        · by_cases ha : isWS a = true
          · left
            rw [h1, if_pos ha]
          · right
            rw [h1, if_neg ha]
            exact List.mem_cons_self a _
        · rcases ih h1 with h2 | h2
          · exact Or.inl h2
          · exact Or.inr (List.mem_cons_of_mem a h2)

theorem noWSRun_tail {a : Char} {l : List Char} (h : noWSRun (a :: l) = true) :
    noWSRun l = true := by
  cases l with
  | nil => rfl
  | cons b rest =>
    have h2 : (!(isWS a && isWS b) && noWSRun (b :: rest)) = true := h
    exact (Bool.and_eq_true_iff.mp h2).2

theorem noWSRun_head_pair {a b : Char} {l : List Char}
    (h : noWSRun (a :: b :: l) = true) : (isWS a && isWS b) = false := by
  have h2 : (!(isWS a && isWS b) && noWSRun (b :: l)) = true := h
  have h3 := (Bool.and_eq_true_iff.mp h2).1
  cases hh : (isWS a && isWS b)
  · rfl
  · rw [hh] at h3
    exact absurd h3 (by simp)

theorem noWSRun_cons_of_head {a : Char} {t : List Char} (ha : isWS a = false)
    (ht : noWSRun t = true) : noWSRun (a :: t) = true := by
  cases t with
  | nil => rfl
  | cons b rest =>
    show (!(isWS a && isWS b) && noWSRun (b :: rest)) = true
    simp [ha, ht]

theorem collapseWS_cons_not_ws {b : Char} (hb : isWS b = false) (rest : List Char) :
    ∃ t, collapseWS (b :: rest) = b :: t := by
  cases rest with
  | nil => exact ⟨[], by simp [collapseWS, hb]⟩
  | cons c r =>
    refine ⟨collapseWS (c :: r), ?_⟩
    have hc : ¬(isWS b = true ∧ isWS c = true) := fun h => by rw [hb] at h; exact absurd h.1 (by simp)
    simp only [collapseWS]
    rw [if_neg hc, if_neg (by simp [hb])]

theorem noWSRun_collapseWS (l : List Char) : noWSRun (collapseWS l) = true := by
  induction l with
  | nil => rfl
  | cons a rest ih =>
    cases rest with
    | nil =>
      simp only [collapseWS]
      by_cases ha : isWS a = true
      · rw [if_pos ha]; rfl
      · rw [if_neg ha]; rfl
    | cons b rest' =>
      simp only [collapseWS]
      by_cases hc : isWS a = true ∧ isWS b = true
      · rw [if_pos hc]; exact ih
      · rw [if_neg hc]
        by_cases hb : isWS b = true
        · have ha : isWS a = false := by
            cases haa : isWS a
            · rfl
            · exact absurd ⟨haa, hb⟩ hc
          rw [if_neg (by simp [ha])]
          exact noWSRun_cons_of_head ha ih
        · have hb' : isWS b = false := by
            cases hbb : isWS b
            · rfl
            · exact absurd hbb hb
          obtain ⟨t, ht⟩ := collapseWS_cons_not_ws hb' rest'
          rw [ht]
          have h2 : noWSRun (b :: t) = true := ht ▸ ih
          show noWSRun (_ :: b :: t) = true
          show (!(isWS _ && isWS b) && noWSRun (b :: t)) = true
          simp [hb', h2]

theorem trimLeft_head_not_ws {l t : List Char} {y : Char} (h : trimLeft l = y :: t) :
    isWS y = false := by
  induction l with
  | nil => simp [trimLeft] at h
  | cons a rest ih =>
    rw [trimLeft, List.dropWhile_cons] at h
    by_cases ha : isWS a = true
    · rw [if_pos ha] at h
      exact ih h
    · rw [if_neg ha] at h
      injection h with h1 _
      subst h1
      cases haa : isWS a
      · rfl
      · exact absurd haa ha

theorem trimRight_eq_cons {l t : List Char} {y : Char} (h : trimRight l = y :: t) :
    ∃ t₀, l = y :: t₀ := by
  cases l with
  | nil => simp [trimRight] at h
  | cons a rest =>
    simp only [trimRight] at h
    by_cases hc : (trimRight rest).isEmpty = true ∧ isWS a = true
    · rw [if_pos hc] at h
      cases h
    · rw [if_neg hc] at h
      injection h with h1 _
      exact ⟨rest, by rw [h1]⟩

theorem noWSRun_trimLeft {l : List Char} (h : noWSRun l = true) :
    noWSRun (trimLeft l) = true := by
  induction l with
  | nil => rfl
  | cons a rest ih =>
    rw [trimLeft, List.dropWhile_cons]
    by_cases ha : isWS a = true
    · rw [if_pos ha]
      exact ih (noWSRun_tail h)
    · rw [if_neg ha]
      exact h

theorem noWSRun_trimRight {l : List Char} (h : noWSRun l = true) :
    noWSRun (trimRight l) = true := by
  induction l with
  | nil => rfl
  | cons a rest ih =>
    simp only [trimRight]
    by_cases hc : (trimRight rest).isEmpty = true ∧ isWS a = true
    · rw [if_pos hc]
      rfl
    · rw [if_neg hc]
      have hr : noWSRun (trimRight rest) = true := ih (noWSRun_tail h)
      cases ht : trimRight rest with
      | nil => rfl
      | cons y t =>
        obtain ⟨t₀, h₀⟩ := trimRight_eq_cons ht
        rw [h₀] at h
        have hp : (isWS a && isWS y) = false := noWSRun_head_pair h
        rw [ht] at hr
        show (!(isWS a && isWS y) && noWSRun (y :: t)) = true
        simp [hp, hr]

theorem trimRight_idem (l : List Char) : trimRight (trimRight l) = trimRight l := by
  induction l with
  | nil => rfl
  | cons a rest ih =>
    simp only [trimRight]
    by_cases hc : (trimRight rest).isEmpty = true ∧ isWS a = true
    · rw [if_pos hc]
      rfl
    · rw [if_neg hc]
      simp only [trimRight]
      rw [ih, if_neg hc]

theorem trimLeft_eq_self {l : List Char}
    (h : ∀ y t, l = y :: t → isWS y = false) : trimLeft l = l := by
  cases l with
  | nil => rfl
  | cons a rest =>
    rw [trimLeft, List.dropWhile_cons, if_neg (by simp [h a rest rfl])]

theorem stripL_stripL (l : List Char) : stripL (stripL l) = stripL l := by
  unfold stripL
  have h1 : trimLeft (trimRight (trimLeft l)) = trimRight (trimLeft l) := by
    apply trimLeft_eq_self
    intro y t ht
    obtain ⟨t₀, h₀⟩ := trimRight_eq_cons ht
    exact trimLeft_head_not_ws h₀
  rw [h1, trimRight_idem]

theorem stripL_normList (l : List Char) : stripL (normList l) = normList l := by
  simp only [normList]
  exact stripL_stripL _

theorem noWSRun_normList (l : List Char) : noWSRun (normList l) = true := by
  simp only [normList]
  exact noWSRun_trimRight (noWSRun_trimLeft (noWSRun_collapseWS _))

theorem allowed_normList {c : Char} {l : List Char} (h : c ∈ normList l) :
    isAllowed c = true := by
  simp only [normList] at h
  rcases mem_collapseWS (mem_stripL h) with h2 | h2
  · rw [h2]
    decide
  · exact (List.mem_filter.mp h2).2

theorem collapseWS_eq_self {l : List Char} (h1 : ∀ c ∈ l, isWS c = true → c = ' ')
    (h2 : noWSRun l = true) : collapseWS l = l := by
  induction l with
  | nil => rfl
  | cons a rest ih =>
    cases rest with
    | nil =>
      simp only [collapseWS]
      by_cases ha : isWS a = true
      · rw [if_pos ha, h1 a (List.mem_cons_self a []) ha]
      · rw [if_neg ha]
    | cons b rest' =>
      simp only [collapseWS]
      have hp : (isWS a && isWS b) = false := noWSRun_head_pair h2
      have hpn : ¬(isWS a = true ∧ isWS b = true) := by
        intro hh
        rw [hh.1, hh.2] at hp
        exact absurd hp (by simp)
      rw [if_neg hpn]
      rw [ih (fun c hc hw => h1 c (List.mem_cons_of_mem a hc) hw) (noWSRun_tail h2)]
      by_cases ha : isWS a = true
      · rw [if_pos ha, h1 a (List.mem_cons_self a _) ha]
      · rw [if_neg ha]

theorem normList_eq_self {r : List Char} (hall : ∀ c ∈ r, isAllowed c = true)
    (hrun : noWSRun r = true) (hstrip : stripL r = r) : normList r = r := by
  have hne : ∀ (d : Char), isAllowed d = false → ∀ c ∈ r, (c == d) = false := by
    intro d hd c hc
    have h := allowed_ne_of (hall c hc) hd
    simp [h]
  have hcoll : collapseWS r = r :=
    collapseWS_eq_self (fun c hc hw => allowed_ws_eq_space (hall c hc) hw) hrun
  have hlow : lowerL r = r := lowerL_eq_self hall
  have hamp : replAll ampRepl r = r :=
    replAll_id _ _ (fun c hc => by simp [ampRepl, hne '&' (by decide) c hc])
  have hcolon : replAll colonRepl r = r :=
    replAll_id _ _ (fun c hc => by simp [colonRepl, hne ':' (by decide) c hc])
  have hpipe : replAll pipeRepl r = r :=
    replAll_id _ _ (fun c hc => by simp [pipeRepl, hne '|' (by decide) c hc])
  have hslash : replAll slashRepl r = r :=
    replAll_id _ _ (fun c hc => by simp [slashRepl, hne '/' (by decide) c hc])
  have hback : replAll backslashRepl r = r :=
    replAll_id _ _ (fun c hc => by simp [backslashRepl, hne '\\' (by decide) c hc])
  have hfil : r.filter isAllowed = r := filter_allowed_eq_self hall
  simp only [normList]
  rw [hstrip, hlow, hcoll, hamp, hcolon, hpipe, hslash, hback, hfil, hcoll, hstrip]

theorem normList_idem (l : List Char) : normList (normList l) = normList l :=
  normList_eq_self (fun _ hc => allowed_normList hc) (noWSRun_normList l) (stripL_normList l)

/-! ## Lemmas: cache write and round trip -/

theorem staleFallback_cacheWritten (cache : CacheState) :
    (staleFallback cache).cacheWritten = none := by
  unfold staleFallback
  by_cases hc : cache.cacheExists = true
  · rw [if_pos hc]
    cases hcc : cache.content with
    | some i => rfl
    | none => rfl
  · rw [if_neg hc]

theorem fetchPhase_cacheWritten_some {cache : CacheState} {fetch : FetchOutcome}
    {persistOk : Bool} {idx : Index}
    (h : (fetchPhase cache fetch persistOk).cacheWritten = some idx) :
    (fetchPhase cache fetch persistOk).result = .ok idx := by
  cases fetch with
  | httpError =>
    have h2 : (staleFallback cache).cacheWritten = some idx := h
    rw [staleFallback_cacheWritten] at h2
    cases h2
  | otherError =>
    have h2 : (staleFallback cache).cacheWritten = some idx := h
    rw [staleFallback_cacheWritten] at h2
    cases h2
  | ok payload =>
    have h1 : (match buildFresh payload with
      | Except.error e => ({ result := .error e, cacheWritten := none, usedNetwork := true } : BuildResult)
      | Except.ok i =>
        { result := .ok i, cacheWritten := if persistOk then some i else none,
          usedNetwork := true }).cacheWritten = some idx := h
    show (match buildFresh payload with
      | Except.error e => ({ result := .error e, cacheWritten := none, usedNetwork := true } : BuildResult)
      | Except.ok i =>
        { result := .ok i, cacheWritten := if persistOk then some i else none,
          usedNetwork := true }).result = .ok idx
    cases hb : buildFresh payload with
    | error e =>
      rw [hb] at h1
      exact absurd h1 (by simp)
    | ok i =>
      rw [hb] at h1
      have h2 : (if persistOk then some i else none) = some idx := h1
      by_cases hp : persistOk = true
      · rw [if_pos hp] at h2
        injection h2 with e
        rw [e]
      · rw [if_neg hp] at h2
        cases h2

theorem build_index_cacheWritten_some {cache : CacheState} {fetch : FetchOutcome}
    {persistOk : Bool} {idx : Index}
    (h : (build_index cache fetch persistOk).cacheWritten = some idx) :
    (build_index cache fetch persistOk).result = .ok idx := by
  unfold build_index at h ⊢
  cases hf : (if cache.cacheExists ∧ cache.age < INDEX_TTL_SECS then cache.content else none) with
  | some i =>
    rw [hf] at h
    exact absurd h (by simp)
  | none =>
    rw [hf] at h
    exact fetchPhase_cacheWritten_some h

/-! ## Lemmas: resolver -/

theorem pick_none_sound (idx : Index) (cands : List String)
    (h : pick_logo_path idx cands = none) :
    ∀ c ∈ cands, ∀ p, List.lookup (normalize_key c) idx = some p → p = "" := by
  induction cands with
  | nil =>
    intro c hc
    exact absurd hc (List.not_mem_nil c)
  | cons c rest ih =>
    intro d hd p hp
    rw [pick_logo_path] at h
    cases hl : List.lookup (normalize_key c) idx with
    | some q =>
      rw [hl] at h
      have h2 : (if q ≠ "" then some q else pick_logo_path idx rest) = none := h
      by_cases hq : q = ""
      · rw [if_neg (by simp [hq])] at h2
        rcases List.mem_cons.mp hd with h1 | h1
        · subst h1
          rw [hl] at hp
          injection hp with e
          rw [← e]
          exact hq
        · exact ih h2 d h1 p hp
      · rw [if_pos hq] at h2
        cases h2
    | none =>
      rw [hl] at h
      have h2 : pick_logo_path idx rest = none := h
      rcases List.mem_cons.mp hd with h1 | h1
      · subst h1
        rw [hl] at hp
        cases hp
      · exact ih h2 d h1 p hp

theorem pick_some_sound (idx : Index) (cands : List String) (p : String)
    (h : pick_logo_path idx cands = some p) :
    p ≠ "" ∧ ∃ pre c post, cands = pre ++ c :: post ∧
      List.lookup (normalize_key c) idx = some p ∧
      ∀ c' ∈ pre, ∀ q, List.lookup (normalize_key c') idx = some q → q = "" := by
  induction cands with
  | nil =>
    rw [pick_logo_path] at h
    cases h
  | cons c rest ih =>
    rw [pick_logo_path] at h
    cases hl : List.lookup (normalize_key c) idx with
    | some q =>
      rw [hl] at h
      have h2 : (if q ≠ "" then some q else pick_logo_path idx rest) = some p := h
      by_cases hq : q = ""
      · rw [if_neg (by simp [hq])] at h2
        obtain ⟨hp, pre, c', post, hcands, hlook, hpre⟩ := ih h2
        refine ⟨hp, c :: pre, c', post, by rw [hcands, List.cons_append], hlook, ?_⟩
        intro d hd q' hq'
        rcases List.mem_cons.mp hd with h1 | h1
        · subst h1
          rw [hl] at hq'
          injection hq' with e
          rw [← e]
          exact hq
        · exact hpre d h1 q' hq'
      · rw [if_pos hq] at h2
        injection h2 with e
        subst e
        exact ⟨hq, [], c, rest, rfl, hl, fun d hd => absurd hd (List.not_mem_nil d)⟩
    | none =>
      rw [hl] at h
      have h2 : pick_logo_path idx rest = some p := h
      obtain ⟨hp, pre, c', post, hcands, hlook, hpre⟩ := ih h2
      refine ⟨hp, c :: pre, c', post, by rw [hcands, List.cons_append], hlook, ?_⟩
      intro d hd q' hq'
      rcases List.mem_cons.mp hd with h1 | h1
      · subst h1
        rw [hl] at hq'
        cases hq'
      · exact hpre d h1 q' hq'

/-! ## Lemmas: placeholder detector -/

theorem endsWithL_iff (l s : List Char) :
    endsWithL l s = true ↔ ∃ t, l = t ++ s := by
  unfold endsWithL
  simp only [Bool.and_eq_true, decide_eq_true_eq, beq_iff_eq]
  constructor
  · rintro ⟨hlen, hdrop⟩
    refine ⟨l.take (l.length - s.length), ?_⟩
    conv_lhs => rw [← List.take_append_drop (l.length - s.length) l]
    rw [hdrop]
  · rintro ⟨t, rfl⟩
    refine ⟨by simp, ?_⟩
    rw [List.length_append, Nat.add_sub_cancel]
    exact List.drop_left t s

theorem anchoredSuffix_iff (val pat : List Char) :
    anchoredSuffix val pat = true ↔
      (lowerL val = pat ∨ ∃ t, lowerL val = t ++ '/' :: pat) := by
  unfold anchoredSuffix
  simp only [Bool.or_eq_true, beq_iff_eq, endsWithL_iff]

/-- The Placeholder Detector contract in the spec's words: empty value, or
the trimmed value matches — case-insensitively, anchored at the start or
right after a `/` — a bare word `logo` or `default` optionally followed by
a known image extension, or the exact filename `download.jpg`. -/
def PlaceholderSpec (value : String) : Prop :=
  value = "" ∨
  (∃ w e, (w = ('l' :: 'o' :: 'g' :: 'o' :: []) ∨
           w = ('d' :: 'e' :: 'f' :: 'a' :: 'u' :: 'l' :: 't' :: [])) ∧
    e ∈ placeholderExts ∧
    (lowerL (stripL value.data) = w ++ e ∨
     ∃ t, lowerL (stripL value.data) = t ++ '/' :: (w ++ e))) ∨
  (lowerL (stripL value.data) =
      ('d' :: 'o' :: 'w' :: 'n' :: 'l' :: 'o' :: 'a' :: 'd' :: '.' :: 'j' :: 'p' :: 'g' :: []) ∨
   ∃ t, lowerL (stripL value.data) =
      t ++ '/' :: ('d' :: 'o' :: 'w' :: 'n' :: 'l' :: 'o' :: 'a' :: 'd' :: '.' :: 'j' :: 'p' :: 'g' :: []))

theorem is_placeholder_iff_spec (v : String) :
    is_placeholder v = true ↔ PlaceholderSpec v := by
  unfold is_placeholder PlaceholderSpec
  by_cases hv : v = ""
  · simp [hv]
  · rw [if_neg (by simp [hv])]
    simp only [Bool.or_eq_true, wordExtMatch, List.any_eq_true, anchoredSuffix_iff, hv,
      false_or]
    constructor
    · rintro ((⟨e, he, hm⟩ | ⟨e, he, hm⟩) | hm)
      · exact Or.inl ⟨_, e, Or.inl rfl, he, hm⟩
      · exact Or.inl ⟨_, e, Or.inr rfl, he, hm⟩
      · exact Or.inr hm
    · rintro (⟨w, e, (rfl | rfl), he, hm⟩ | hm)
      · exact Or.inl (Or.inl ⟨e, he, hm⟩)
      · exact Or.inl (Or.inr ⟨e, he, hm⟩)
      · exact Or.inr hm

/-! ## Claim theorems -/

/-- C1: evaluation at the failing input.  The spec demands that a malformed
listing payload funnels into the stale-on-error path, but a payload that is
valid JSON yet not an object — here the empty JSON array — makes
`build_index` raise `AttributeError` at `tree.get("tree", [])` (which sits
outside the `try` block), even though a parse-able stale cache file exists
that the claim says would be returned. -/
theorem build_index_malformed_payload_raises :
    build_index ⟨true, INDEX_TTL_SECS, some [("espn", "Sports/ESPN.png")]⟩
        (.ok (.arr [])) true =
      ⟨.error .attributeError, none, true⟩ := rfl

/-- C2 counterexample: with the index binding `"espn"` to the empty string,
the candidate `"ESPN"` normalizes to a key that is bound in the index, yet
`pick_logo_path` returns no match — the source tests `if path:`, so a bound
empty value is passed over, contradicting the claim as stated. -/
theorem pick_logo_path_claim_counterexample :
    List.lookup (normalize_key "ESPN") [("espn", "")] = some "" ∧
    pick_logo_path [("espn", "")] ["ESPN"] = none := by
  constructor
  · decide
  · decide

/-- C2 (amended): `pick_logo_path` returns the index value of the first
candidate in list order whose normalized form is bound to a NON-EMPTY value
(candidates bound to the empty string are passed over like misses), and
returns no-match only if every candidate misses or is bound to the empty
string; the spec's concrete example holds. -/
theorem pick_logo_path_first_nonempty_hit (idx : Index) (cands : List String) :
    (pick_logo_path idx cands = none →
      ∀ c ∈ cands, ∀ p, List.lookup (normalize_key c) idx = some p → p = "") ∧
    (∀ p, pick_logo_path idx cands = some p → p ≠ "" ∧
      ∃ pre c post, cands = pre ++ c :: post ∧
        List.lookup (normalize_key c) idx = some p ∧
        ∀ c' ∈ pre, ∀ q, List.lookup (normalize_key c') idx = some q → q = "") ∧
    pick_logo_path [("espn", "Sports/ESPN.png")] ["ESPN US", "ESPN"] =
      some "Sports/ESPN.png" :=
  ⟨pick_none_sound idx cands, fun p h => pick_some_sound idx cands p h, by decide⟩

/-- C2 witness: the amended characterization applied at the spec's concrete
example. -/
theorem pick_logo_path_first_nonempty_hit_witness :
    pick_logo_path [("espn", "Sports/ESPN.png")] ["ESPN US", "ESPN"] =
      some "Sports/ESPN.png" :=
  (pick_logo_path_first_nonempty_hit [] []).2.2

/-- C3: normalization is idempotent — `normalize_key` applied twice gives
the same result as applying it once, for every input string. -/
theorem normalize_key_idempotent (s : String) :
    normalize_key (normalize_key s) = normalize_key s :=
  congrArg String.mk (normList_idem s.data)

/-- C4: on a successfully fetched well-shaped listing, `build_index`
builds exactly `buildFromNodes`, and the resulting mapping binds each key
to the path of the FIRST eligible listing entry (in listing order) whose
stripped, normalized basename equals that key — so under duplicate
normalized basenames the first writer wins, and only blob entries with an
image extension contribute. -/
theorem build_index_first_writer_wins (nodes : List TreeNode) (k : String) :
    buildFresh (encodeListing nodes) = .ok (buildFromNodes nodes []) ∧
    List.lookup k (buildFromNodes nodes []) =
      ((nodes.filter eligible).find? (fun n => keyOf n == k)).map pathOf := by
  refine ⟨buildFresh_encode nodes, ?_⟩
  rw [lookup_buildFromNodes]
  rfl

/-- C5: with a run-lock marker younger than 60 seconds present at entry,
`_do_pass` returns the `"locked"` summary (all counters zero) at once and
performs no index build, no download attempt and no assignment attempt. -/
theorem do_pass_locked_skips (env : PassEnv)
    (h1 : env.lockExists = true) (h2 : env.lockAge < 60) :
    do_pass env = (.ok lockedSummary, ⟨false, false, false, false, 0, 0⟩) ∧
    lockedSummary.ok = true ∧ lockedSummary.updated = 0 ∧
    lockedSummary.downloaded = 0 ∧ lockedSummary.skipped = 0 ∧
    lockedSummary.miss = 0 ∧ lockedSummary.reason = some "locked" := by
  refine ⟨?_, rfl, rfl, rfl, rfl, rfl, rfl⟩
  unfold do_pass
  rw [if_pos ⟨h1, h2⟩]

/-- C5 witness: the locked-skip behavior at a concrete environment. -/
theorem do_pass_locked_skips_witness :
    do_pass ⟨true, 0, "/data/logos", true, true, ⟨false, 0, none⟩, .httpError, true, []⟩ =
      (.ok lockedSummary, ⟨false, false, false, false, 0, 0⟩) :=
  (do_pass_locked_skips _ rfl (by decide)).1

/-- C6 counterexample: with model discovery succeeding, the channel query
failing, a cold cache and a well-formed fetch, the pass does return the
`"query-error"` summary with zero counters, but it has already built the
index and written the cache file — a side effect — contradicting the
claim's "performs zero side effects". -/
theorem do_pass_collaborator_missing_counterexample :
    (do_pass ⟨false, 0, "/d", true, false, ⟨false, 0, none⟩, .ok (.obj []), true, []⟩).1 =
      .ok { ok := false, updated := 0, downloaded := 0, skipped := 0, miss := 0,
            logosDir := "/d", reason := some "query-error" } ∧
    (do_pass ⟨false, 0, "/d", true, false, ⟨false, 0, none⟩,
        .ok (.obj []), true, []⟩).2.cacheWritten = true :=
  ⟨rfl, rfl⟩

/-- C6 (amended): when the models are not discovered, or the channel query
fails, the pass returns `ok: false` with the matching reason code and all
counters zero, and performs no download attempt and no assignment attempt;
the models check precedes the index build (no index is built on
`"models-not-found"`), but on `"query-error"` the index build — and
possibly its cache write — has already happened. -/
theorem do_pass_collaborator_missing (env : PassEnv)
    (hl : ¬(env.lockExists = true ∧ env.lockAge < 60)) :
    (env.modelsFound = false →
      do_pass env =
        (.ok { ok := false, updated := 0, downloaded := 0, skipped := 0, miss := 0,
               logosDir := env.logosDir, reason := some "models-not-found" },
         ⟨true, true, false, false, 0, 0⟩)) ∧
    (∀ idx, env.modelsFound = true → env.queryOk = false →
      (build_index env.cache env.fetch env.persistOk).result = .ok idx →
      do_pass env =
        (.ok { ok := false, updated := 0, downloaded := 0, skipped := 0, miss := 0,
               logosDir := env.logosDir, reason := some "query-error" },
         ⟨true, true, true,
          (build_index env.cache env.fetch env.persistOk).cacheWritten.isSome, 0, 0⟩)) := by
  constructor
  · intro hm
    unfold do_pass
    rw [if_neg hl, if_pos (by simp [hm])]
  · intro idx hm hq hb
    unfold do_pass
    rw [if_neg hl, if_neg (by simp [hm])]
    simp only [hb]
    rw [if_pos (by simp [hq])]

/-- C6 witness: both collaborator-missing branches at concrete
environments. -/
theorem do_pass_collaborator_missing_witness :
    do_pass ⟨false, 0, "/d", false, true, ⟨false, 0, none⟩, .httpError, true, []⟩ =
      (.ok { ok := false, updated := 0, downloaded := 0, skipped := 0, miss := 0,
             logosDir := "/d", reason := some "models-not-found" },
       ⟨true, true, false, false, 0, 0⟩) ∧
    do_pass ⟨false, 0, "/d", true, false, ⟨false, 0, none⟩, .httpError, true, []⟩ =
      (.ok { ok := false, updated := 0, downloaded := 0, skipped := 0, miss := 0,
             logosDir := "/d", reason := some "query-error" },
       ⟨true, true, true, false, 0, 0⟩) :=
  ⟨(do_pass_collaborator_missing _ (by simp)).1 rfl,
   (do_pass_collaborator_missing _ (by simp)).2 [] rfl rfl rfl⟩

/-- C7: if a `build_index` call built a fresh mapping from a successful
fetch and persisted it to the cache, then that call returned exactly the
persisted mapping, and any subsequent call that sees the persisted cache
with age below the 6-hour TTL returns the identical mapping with no
network use and no further cache write. -/
theorem build_index_cache_roundtrip (cache : CacheState) (fetch fetch2 : FetchOutcome)
    (idx : Index) (age2 : Nat) (persistOk2 : Bool)
    (hW : (build_index cache fetch true).cacheWritten = some idx)
    (hAge : age2 < INDEX_TTL_SECS) :
    (build_index cache fetch true).result = .ok idx ∧
    build_index ⟨true, age2, some idx⟩ fetch2 persistOk2 = ⟨.ok idx, none, false⟩ := by
  refine ⟨build_index_cacheWritten_some hW, ?_⟩
  unfold build_index
  rw [if_pos ⟨rfl, hAge⟩]

/-- C7 witness: a concrete build-persist-reload round trip. -/
theorem build_index_cache_roundtrip_witness :
    (build_index ⟨false, 0, none⟩ (.ok (.obj [])) true).result = .ok [] ∧
    build_index ⟨true, 0, some []⟩ .httpError true = ⟨.ok [], none, false⟩ :=
  build_index_cache_roundtrip ⟨false, 0, none⟩ (.ok (.obj [])) .httpError [] 0 true
    rfl (by decide)

/-- C8: a scanned channel whose current logo value is present (truthy) and
not a placeholder is skipped: the loop body yields the `skipped` outcome,
which increments exactly the `skipped` counter and leaves the downloaded,
updated and miss counters and the download/assignment attempt counts
unchanged — no resolution, download or assignment happens for it. -/
theorem do_pass_existing_logo_skipped (index : Index) (ch : Chan)
    (h1 : pyTruthyO ch.logoVal = true)
    (h2 : is_placeholder (ch.logoVal.getD "") = false) :
    processChan index ch = ChanOutcome.skipped ∧
    ∀ t : Tally, tallyStep t (processChan index ch) =
      { t with skipped := t.skipped + 1 } := by
  have hs : processChan index ch = ChanOutcome.skipped := by
    unfold processChan
    rw [h1, h2]
    rfl
  exact ⟨hs, fun t => by rw [hs]; rfl⟩

/-- C8 witness: a channel with a real CDN logo value is skipped. -/
theorem do_pass_existing_logo_skipped_witness :
    processChan [] ⟨none, none, some "https://cdn/x/ESPN.png", true, true⟩ =
      ChanOutcome.skipped :=
  (do_pass_existing_logo_skipped [] ⟨none, none, some "https://cdn/x/ESPN.png", true, true⟩
    (by decide) (by decide)).1

/-- C9: the placeholder detector returns true on the empty value, true on
`"logo.png"` and `"download.jpg"`, false on `"https://cdn/x/ESPN.png"`;
and in general it returns true exactly when the value is empty or its
trimmed form matches one of the fixed patterns case-insensitively (a bare
`logo`/`default` optionally followed by a known image extension, anchored
at the start or after a path separator, or the exact filename
`download.jpg`). -/
theorem is_placeholder_spec :
    is_placeholder "" = true ∧ is_placeholder "logo.png" = true ∧
    is_placeholder "download.jpg" = true ∧
    is_placeholder "https://cdn/x/ESPN.png" = false ∧
    ∀ v : String, is_placeholder v = true ↔ PlaceholderSpec v :=
  ⟨by decide, by decide, by decide, by decide, is_placeholder_iff_spec⟩

/-- C9 witness: the detector evaluated on the spec's concrete example. -/
theorem is_placeholder_spec_witness : is_placeholder "logo.png" = true :=
  is_placeholder_spec.2.1

/-- C10: any pass that reaches the iteration phase returns a summary in
which each scanned channel contributed to exactly one of `skipped`, `miss`
or `downloaded` — their sum equals the number of channels scanned — and
`updated` never exceeds `downloaded`. -/
theorem do_pass_counter_invariant (env : PassEnv) (idx : Index)
    (h1 : ¬(env.lockExists = true ∧ env.lockAge < 60))
    (h2 : env.modelsFound = true)
    (h3 : (build_index env.cache env.fetch env.persistOk).result = .ok idx)
    (h4 : env.queryOk = true) :
    ∃ s : Summary, (do_pass env).1 = .ok s ∧ s.ok = true ∧
      s.skipped + s.miss + s.downloaded = env.chans.length ∧
      s.updated ≤ s.downloaded := by
  rw [do_pass_iterating_eq env idx h1 h2 h3 h4]
  refine ⟨_, rfl, rfl, ?_, ?_⟩
  · have hs := foldl_tallyStep_sum (env.chans.map (processChan idx)) ⟨0, 0, 0, 0, 0, 0⟩
    simpa [tally] using hs
  · exact foldl_tallyStep_updated_le _ _ (by simp)

/-- C10 witness: the counter invariant at a concrete environment. -/
theorem do_pass_counter_invariant_witness :
    ∃ s : Summary,
      (do_pass ⟨false, 0, "/d", true, true, ⟨false, 0, none⟩, .httpError, true, []⟩).1 =
        .ok s ∧
      s.ok = true ∧ s.skipped + s.miss + s.downloaded = ([] : List Chan).length ∧
      s.updated ≤ s.downloaded :=
  do_pass_counter_invariant _ [] (by simp) rfl rfl rfl

end LogoPlugin
